import Mathlib

/-!
Verification development for the warix-rxjs data-source pipeline.

The TypeScript sources are shallowly embedded: JS arrays become `List`,
JS numbers become `Int`/`Nat` (with explicit coercion of `null` to `0`
where the JS code relies on it), `null`/`undefined` become `Option`,
observables become explicit emission lists, and the fixed 10 ms debounce
becomes a function on virtual-time-stamped event lists.
-/

namespace Warix

/-! ## JS list primitives

Helpers mirroring the JavaScript built-ins used by `warix.data-map.ts`:
`Array.prototype.slice`, `Array.prototype.splice` argument clamping and
the (stable, comparator-driven) `Array.prototype.sort`. -/

/-- Model of `array.slice(a, b)` for non-negative bounds. -/
def jsSlice (l : List α) (a b : Nat) : List α :=
  (l.drop a).take (b - a)

/-- Model of the start-argument clamping performed by `Array.prototype.splice`:
a negative start counts back from the end, a too-large start clamps to the
length. -/
def jsSpliceStart (len : Nat) (start : Int) : Nat :=
  if start < 0 then (len + start).toNat else min start.toNat len

/-- Model of the delete-count clamping performed by `Array.prototype.splice`. -/
def jsSpliceDelete (len s : Nat) (deleteCount : Int) : Nat :=
  min (max deleteCount 0).toNat (len - s)

/-- Insert an element into a sorted list in front of the first element it
compares `le` to; used to model the stable `Array.prototype.sort`. -/
def insertSorted (le : α → α → Bool) (x : α) : List α → List α
  | [] => [x]
  | y :: ys => if le x y then x :: y :: ys else y :: insertSorted le x ys

/-- Stable comparator sort modelling `Array.prototype.sort(compareFn)`
(stable per the ECMAScript specification). -/
def jsSort (le : α → α → Bool) : List α → List α
  | [] => []
  | x :: xs => insertSorted le x (jsSort le xs)

theorem length_insertSorted (le : α → α → Bool) (x : α) (l : List α) :
    (insertSorted le x l).length = l.length + 1 := by
  induction l with
  | nil => rfl
  | cons y ys ih =>
    simp only [insertSorted]
    by_cases h : le x y = true
    · simp [h]
    · simp [h, ih]

theorem length_jsSort (le : α → α → Bool) (l : List α) :
    (jsSort le l).length = l.length := by
  induction l with
  | nil => rfl
  | cons x xs ih => simp [jsSort, length_insertSorted, ih]

theorem mem_insertSorted (le : α → α → Bool) (x a : α) (l : List α) :
    a ∈ insertSorted le x l → a = x ∨ a ∈ l := by
  induction l with
  | nil => simp [insertSorted]
  | cons y ys ih =>
    simp only [insertSorted]
    by_cases h : le x y = true
    · simp [h]
    · simp only [h, Bool.false_eq_true, if_false, List.mem_cons]
      rintro (rfl | hmem)
      · tauto
      · rcases ih hmem with h' | h' <;> tauto

theorem mem_jsSort (le : α → α → Bool) (a : α) (l : List α) :
    a ∈ jsSort le l → a ∈ l := by
  induction l with
  | nil => simp [jsSort]
  | cons x xs ih =>
    intro h
    rcases mem_insertSorted le x a _ h with rfl | h'
    · simp
    · simp [ih h']

/-- Model of `fnShuffle`'s in-place swap of two positions of an array. -/
def listSwap (l : List α) (i j : Nat) : List α :=
  match l.get? i, l.get? j with
  | some a, some b => (l.set i b).set j a
  | _, _ => l

theorem length_listSwap (l : List α) (i j : Nat) :
    (listSwap l i j).length = l.length := by
  unfold listSwap
  cases l.get? i <;> cases l.get? j <;> simp

/-- Model of `fnShuffle`: a Fisher-Yates walk where the random draw of each
step is supplied by `rnd` (the value of `Math.floor(Math.random() * counter)`
at the step with the given counter, reduced mod the counter so it is in
range). -/
def fnShuffleAux (rnd : Nat → Nat) : Nat → List α → List α
  | 0, a => a
  | c + 1, a => fnShuffleAux rnd c (listSwap a c (rnd (c + 1) % (c + 1)))

def fnShuffle (rnd : Nat → Nat) (array : List α) : List α :=
  fnShuffleAux rnd array.length array

theorem length_fnShuffleAux (rnd : Nat → Nat) (c : Nat) (l : List α) :
    (fnShuffleAux rnd c l).length = l.length := by
  induction c generalizing l with
  | zero => rfl
  | succ n ih => simp [fnShuffleAux, ih, length_listSwap]

/-! ## Array delta engine (`warix.data-map.ts` / `warix.array-operations`) -/

/-- Entry of `addedItems` / `removedItems`: `{ index, item }`. -/
structure IWarixArrayItemChange (α : Type u) where
  index : Int
  item : α
  deriving Repr, DecidableEq

/-- Entry of `shiftedItems`: `{ oldIndex, newIndex, item }`. -/
structure IWarixArrayShiftChange (α : Type u) where
  oldIndex : Int
  newIndex : Int
  item : α
  deriving Repr, DecidableEq

/-- Result of an array delta operation. -/
structure IWarixArrayOperationChange (α : Type u) where
  oldValue : List α
  newValue : List α
  addedItems : List (IWarixArrayItemChange α)
  removedItems : List (IWarixArrayItemChange α)
  shiftedItems : List (IWarixArrayShiftChange α)
  deriving Repr, DecidableEq

/-- Model of `fnNoAction`: result that reports no change at all. -/
def fnNoAction (baseArray : List α) : IWarixArrayOperationChange α :=
  { oldValue := baseArray
    newValue := baseArray
    addedItems := []
    removedItems := []
    shiftedItems := [] }

/-- Model of `arrayPush`. -/
def arrayPush (baseArray items : List α) : IWarixArrayOperationChange α :=
  if items.length = 0 then fnNoAction baseArray
  else
    { oldValue := baseArray
      newValue := baseArray ++ items
      addedItems := items.enum.map fun p => ⟨(p.1 : Int) + baseArray.length, p.2⟩
      removedItems := []
      shiftedItems := [] }

/-- Model of `arrayPop`. -/
def arrayPop (baseArray : List α) : IWarixArrayOperationChange α :=
  match h : baseArray.length with
  | 0 => fnNoAction baseArray
  | n + 1 =>
    { oldValue := baseArray
      newValue := baseArray.take n
      addedItems := []
      removedItems := [⟨(n : Int), baseArray.getLast (by
          intro hnil; rw [hnil] at h; simp at h)⟩]
      shiftedItems := [] }

/-- Model of `arrayShift`. Note the source computes the surviving items'
descriptors as `{ oldIndex: i - 1, newIndex: i }` over the new array. -/
def arrayShift (baseArray : List α) : IWarixArrayOperationChange α :=
  match baseArray with
  | [] => fnNoAction []
  | x :: rest =>
    { oldValue := x :: rest
      newValue := rest
      addedItems := []
      removedItems := [⟨0, x⟩]
      shiftedItems := rest.enum.map fun p => ⟨(p.1 : Int) - 1, (p.1 : Int), p.2⟩ }

/-- Model of `arrayUnshift`. -/
def arrayUnshift (baseArray items : List α) : IWarixArrayOperationChange α :=
  if items.length = 0 then fnNoAction baseArray
  else
    { oldValue := baseArray
      newValue := items ++ baseArray
      addedItems := items.enum.map fun p => ⟨(p.1 : Int), p.2⟩
      removedItems := []
      shiftedItems := baseArray.enum.map fun p =>
        ⟨(p.1 : Int), (p.1 : Int) + items.length, p.2⟩ }

/-- Model of `arraySplice`: the base array is cloned into
`{ oldIndex, newIndex, item }` records, `Array.prototype.splice` removes
`deleteCount` records at `start` and inserts the new items with
`oldIndex = -1`, and every record's `newIndex` is then reassigned to its
position in the resulting array. -/
def arraySplice (baseArray : List α) (start deleteCount : Int) (items : List α) :
    IWarixArrayOperationChange α :=
  let len := baseArray.length
  let s := jsSpliceStart len start
  let d := jsSpliceDelete len s deleteCount
  let mappedClone : List (Int × α) := baseArray.enum.map fun p => ((p.1 : Int), p.2)
  let removedClone := (mappedClone.drop s).take d
  let kept := mappedClone.take s ++ items.map (fun it => ((-1 : Int), it)) ++
    mappedClone.drop (s + d)
  let withNew : List (Int × Nat × α) := kept.enum.map fun p => (p.2.1, p.1, p.2.2)
  { oldValue := baseArray
    newValue := kept.map (·.2)
    addedItems := (withNew.filter fun x => x.1 = -1).map fun x => ⟨(x.2.1 : Int), x.2.2⟩
    removedItems := removedClone.map fun x => ⟨x.1, x.2⟩
    shiftedItems := (withNew.filter fun x => x.1 ≠ (x.2.1 : Int) ∧ x.1 > -1).map
      fun x => ⟨x.1, (x.2.1 : Int), x.2.2⟩ }

/-- Model of `arrayInsert`. -/
def arrayInsert (baseArray : List α) (index : Int) (items : List α) :
    IWarixArrayOperationChange α :=
  if items.length = 0 then fnNoAction baseArray
  else arraySplice baseArray index 0 items

/-- Model of `arrayRemoveAt` (default `removeCount = 1`). -/
def arrayRemoveAt (baseArray : List α) (index : Int) (removeCount : Int) :
    IWarixArrayOperationChange α :=
  if removeCount ≤ 0 then fnNoAction baseArray
  else arraySplice baseArray index removeCount []

/-- Model of `arrayRemoveWhere`. All records start with
`newIndex = oldIndex`; surviving records then get their `newIndex`
reassigned to their position among the survivors (removed records keep
`newIndex = oldIndex` and are therefore excluded by the
`oldIndex !== newIndex` filter). -/
def arrayRemoveWhere (baseArray : List α)
    (condition : α → Nat → List α → Bool) : IWarixArrayOperationChange α :=
  let allMapped : List (Nat × α × Bool) :=
    baseArray.enum.map fun p => (p.1, p.2, condition p.2 p.1 baseArray)
  let removedItems := (allMapped.filter fun x => x.2.2).map fun x => ⟨(x.1 : Int), x.2.1⟩
  let result := allMapped.filter fun x => x.2.2 = false
  let survivors : List (Nat × Nat × α) := result.enum.map fun p => (p.2.1, p.1, p.2.2.1)
  { oldValue := baseArray
    newValue := survivors.map (·.2.2)
    addedItems := []
    removedItems := removedItems
    shiftedItems := (survivors.filter fun x => x.1 ≠ x.2.1).map fun x =>
      ⟨(x.1 : Int), (x.2.1 : Int), x.2.2⟩ }

/-- Model of `arrayRemove` (`items.indexOf(i) > -1` is membership). -/
def arrayRemove [DecidableEq α] (baseArray items : List α) :
    IWarixArrayOperationChange α :=
  arrayRemoveWhere baseArray fun i _ _ => decide (i ∈ items)

/-- Model of `arraySort`: the `{ oldIndex, newIndex, item }` records are
sorted by the comparator on the items. The source never reassigns
`newIndex` after the sort (contrast `arrayShuffle`/`arrayRevese`), so each
record keeps `newIndex = oldIndex`. -/
def arraySort (baseArray : List α) (cmp : α → α → Int) :
    IWarixArrayOperationChange α :=
  let mapped : List (Nat × Nat × α) :=
    jsSort (fun a b => cmp a.2.2 b.2.2 ≤ 0)
      (baseArray.enum.map fun p => (p.1, p.1, p.2))
  { oldValue := baseArray
    newValue := mapped.map (·.2.2)
    addedItems := []
    removedItems := []
    shiftedItems := (mapped.filter fun x => x.2.1 ≠ x.1).map fun x =>
      ⟨(x.1 : Int), (x.2.1 : Int), x.2.2⟩ }

/-- Model of `arraySet`. -/
def arraySet (baseArray newValue : List α) : IWarixArrayOperationChange α :=
  { oldValue := baseArray
    newValue := newValue
    addedItems := newValue.enum.map fun p => ⟨(p.1 : Int), p.2⟩
    removedItems := baseArray.enum.map fun p => ⟨(p.1 : Int), p.2⟩
    shiftedItems := [] }

/-- Model of `arraySetAt`. -/
def arraySetAt (baseArray : List α) (index : Int) (value : α) :
    IWarixArrayOperationChange α :=
  arraySplice baseArray index 1 [value]

/-- Model of `arrayRevese` (name as in the source): records are reversed and
`newIndex` is reassigned to the position in the reversed array. -/
def arrayRevese (baseArray : List α) : IWarixArrayOperationChange α :=
  let rev : List (Nat × α) := (baseArray.enum.map fun p => (p.1, p.2)).reverse
  let withNew : List (Nat × Nat × α) := rev.enum.map fun p => (p.2.1, p.1, p.2.2)
  { oldValue := baseArray
    newValue := withNew.map (·.2.2)
    addedItems := []
    removedItems := []
    shiftedItems := (withNew.filter fun x => x.1 ≠ x.2.1).map fun x =>
      ⟨(x.1 : Int), (x.2.1 : Int), x.2.2⟩ }

/-- Model of `arrayShuffle` with the random draws supplied by `rnd`. -/
def arrayShuffle (rnd : Nat → Nat) (baseArray : List α) :
    IWarixArrayOperationChange α :=
  let mapped := fnShuffle rnd (baseArray.enum.map fun p => (p.1, p.2))
  let withNew : List (Nat × Nat × α) := mapped.enum.map fun p => (p.2.1, p.1, p.2.2)
  { oldValue := baseArray
    newValue := withNew.map (·.2.2)
    addedItems := []
    removedItems := []
    shiftedItems := (withNew.filter fun x => x.2.1 ≠ x.1).map fun x =>
      ⟨(x.1 : Int), (x.2.1 : Int), x.2.2⟩ }

/-- Model of `arrayDistinct`: removes every element whose first occurrence
is at an earlier index (`array.indexOf(value) !== index`). -/
def arrayDistinct [DecidableEq α] (baseArray : List α) :
    IWarixArrayOperationChange α :=
  arrayRemoveWhere baseArray fun v i arr => decide (arr.indexOf v ≠ i)

/-! ## Grouping trees (`arrayGroupBy`) -/

/-- Node of the grouping tree `{ groupedBy, groupedByValue, items }`; the
items are either a leaf array or a further list of grouping nodes. The
degenerate root node carries `null` for both descriptors. -/
inductive IWarixArrayGrouping (α : Type u) (β : Type v) : Type (max u v) where
  | node (groupedBy : Option String) (groupedByValue : Option β)
      (items : List α ⊕ List (IWarixArrayGrouping α β))

/-- Model of the inner `fnApplyGrouping` of `arrayGroupBy`: the distinct
values of the property (via `arrayDistinct`) each produce one node whose
items are the matching elements, recursively grouped by the remaining
properties. `getProp` models the property access `item[prop]`. -/
def fnApplyGrouping [DecidableEq β] (getProp : α → String → β) :
    String → List String → List α → List (IWarixArrayGrouping α β)
  | prop, [], ax =>
    (arrayDistinct (ax.map (getProp · prop))).newValue.map fun v =>
      .node (some prop) (some v) (Sum.inl (ax.filter fun i => decide (getProp i prop = v)))
  | prop, p :: ps, ax =>
    (arrayDistinct (ax.map (getProp · prop))).newValue.map fun v =>
      .node (some prop) (some v)
        (Sum.inr (fnApplyGrouping getProp p ps (ax.filter fun i => decide (getProp i prop = v))))

/-- Model of `arrayGroupBy`. -/
def arrayGroupBy [DecidableEq β] (getProp : α → String → β) (baseArray : List α)
    (groupByPropertiesNames : List String) : List (IWarixArrayGrouping α β) :=
  match groupByPropertiesNames with
  | [] => [.node none none (Sum.inl baseArray)]
  | p :: ps =>
    if baseArray.length = 0 then [.node none none (Sum.inl baseArray)]
    else fnApplyGrouping getProp p ps baseArray

/-! ## Specification-side definitions for grouping

These are written from the specification's words, to be compared with the
definitions translated from the source. -/

/-- Modelled from the spec: the distinct values of a list in order of first
appearance ("stable order = order of first appearance in the input, not
sorted"). -/
def firstOccurrences [DecidableEq β] : List β → List β
  | [] => []
  | x :: xs => x :: (firstOccurrences xs).filter fun y => decide (y ≠ x)

/-- Modelled from the spec: recursive partition of a collection by a list of
property paths, one node per distinct value in first-appearance order, each
group's items keeping the input's relative order. -/
def specApplyGrouping [DecidableEq β] (getProp : α → String → β) :
    String → List String → List α → List (IWarixArrayGrouping α β)
  | prop, [], ax =>
    (firstOccurrences (ax.map (getProp · prop))).map fun v =>
      .node (some prop) (some v) (Sum.inl (ax.filter fun i => decide (getProp i prop = v)))
  | prop, p :: ps, ax =>
    (firstOccurrences (ax.map (getProp · prop))).map fun v =>
      .node (some prop) (some v)
        (Sum.inr (specApplyGrouping getProp p ps (ax.filter fun i => decide (getProp i prop = v))))

/-- Modelled from the spec: `groupBy` with the degenerate case (no
properties or empty array) yielding one root node wrapping the whole array
unmodified. -/
def specArrayGroupBy [DecidableEq β] (getProp : α → String → β) (baseArray : List α)
    (props : List String) : List (IWarixArrayGrouping α β) :=
  if baseArray.length = 0 ∨ props.length = 0 then [.node none none (Sum.inl baseArray)]
  else specApplyGrouping getProp props.head! props.tail baseArray

/-! ### `arrayDistinct` keeps exactly the first occurrences, in order -/

theorem enumFrom_map_snd (l : List α) (n : Nat) (k : α → γ) :
    (List.enumFrom n l).map (fun p => k p.2) = l.map k := by
  induction l generalizing n with
  | nil => rfl
  | cons x xs ih => simp [List.enumFrom, ih]

theorem firstOccurrences_filter [DecidableEq β] (p : β → Bool) (l : List β) :
    firstOccurrences (l.filter p) = (firstOccurrences l).filter p := by
  induction l with
  | nil => rfl
  | cons x xs ih =>
    by_cases hx : p x = true
    · rw [List.filter_cons, if_pos hx]
      simp only [firstOccurrences]
      rw [ih, List.filter_cons, if_pos hx, List.filter_filter, List.filter_filter]
      congr 1
      exact List.filter_congr fun a _ => Bool.and_comm _ _
    · rw [List.filter_cons, if_neg hx, ih]
      simp only [firstOccurrences]
      rw [List.filter_cons, if_neg hx, List.filter_filter]
      apply List.filter_congr
      intro a _
      by_cases hax : a = x
      · subst hax
        rw [Bool.not_eq_true] at hx
        simp [hx]
      · simp [hax]

theorem indexOf_filter_enumFrom [DecidableEq β] (pre l : List β) :
    ((List.enumFrom pre.length l).filter fun p =>
        decide ((pre ++ l).indexOf p.2 = p.1)).map (·.2)
      = firstOccurrences (l.filter fun v => decide (v ∉ pre)) := by
  induction l generalizing pre with
  | nil => simp [firstOccurrences]
  | cons x xs ih =>
    have hassoc : pre ++ x :: xs = (pre ++ [x]) ++ xs := by simp
    have hlen : (pre ++ [x]).length = pre.length + 1 := by simp
    have hcons : List.enumFrom pre.length (x :: xs)
        = (pre.length, x) :: List.enumFrom (pre.length + 1) xs := rfl
    have step := ih (pre ++ [x])
    rw [hlen, ← hassoc] at step
    rw [hcons, List.filter_cons]
    by_cases hxpre : x ∈ pre
    · have hidx : (pre ++ x :: xs).indexOf x ≠ pre.length := by
        have h1 : (pre ++ x :: xs).indexOf x = pre.indexOf x :=
          List.indexOf_append_of_mem hxpre
        have h2 : pre.indexOf x < pre.length := List.indexOf_lt_length.mpr hxpre
        omega
      rw [if_neg (by simpa using hidx), step, List.filter_cons,
        if_neg (by simp [hxpre])]
      congr 1
      apply List.filter_congr
      intro a _
      by_cases hap : a ∈ pre
      · simp [hap]
      · have hax : a ≠ x := by rintro rfl; exact hap hxpre
        simp [hap, hax]
    · have hidx : (pre ++ x :: xs).indexOf x = pre.length := by
        rw [List.indexOf_append_of_not_mem hxpre]
        simp
      rw [if_pos (by simpa using hidx), List.map_cons, step, List.filter_cons,
        if_pos (by simpa using hxpre)]
      simp only [firstOccurrences]
      congr 1
      have hsplit : (xs.filter fun v => decide (v ∉ pre ++ [x]))
          = (xs.filter fun v => decide (v ∉ pre)).filter fun y => decide (y ≠ x) := by
        rw [List.filter_filter]
        apply List.filter_congr
        intro a _
        by_cases hap : a ∈ pre
        · simp [hap]
        · by_cases hax : a = x
          · simp [hax]
          · simp [hap, hax]
      rw [hsplit, firstOccurrences_filter]

theorem enum_map_snd (l : List α) (k : α → γ) :
    (l.enum.map fun p => k p.2) = l.map k :=
  enumFrom_map_snd l 0 k

theorem arrayRemoveWhere_newValue (baseArray : List α)
    (condition : α → Nat → List α → Bool) :
    (arrayRemoveWhere baseArray condition).newValue
      = (baseArray.enum.filter fun p =>
          condition p.2 p.1 baseArray = false).map (·.2) := by
  unfold arrayRemoveWhere
  simp only
  rw [List.map_map]
  rw [show ((fun x : Nat × Nat × α => x.2.2) ∘
      fun p : Nat × (Nat × α × Bool) => (p.2.1, p.1, p.2.2.1))
      = (fun p : Nat × (Nat × α × Bool) => (fun y : Nat × α × Bool => y.2.1) p.2)
      from rfl]
  rw [enum_map_snd _ (fun y : Nat × α × Bool => y.2.1)]
  rw [List.filter_map, List.map_map]
  rfl

theorem arrayDistinct_newValue [DecidableEq β] (l : List β) :
    (arrayDistinct l).newValue = firstOccurrences l := by
  have base := indexOf_filter_enumFrom ([] : List β) l
  simp only [List.length_nil, List.nil_append, List.not_mem_nil, not_false_iff,
    decide_True, List.filter_true] at base
  rw [arrayDistinct, arrayRemoveWhere_newValue, ← base]
  congr 1
  apply List.filter_congr
  intro p _
  simp

theorem fnApplyGrouping_eq_spec [DecidableEq β] (getProp : α → String → β)
    (props : List String) (prop : String) (ax : List α) :
    fnApplyGrouping getProp prop props ax = specApplyGrouping getProp prop props ax := by
  induction props generalizing prop ax with
  | nil =>
    simp only [fnApplyGrouping, specApplyGrouping, arrayDistinct_newValue]
  | cons p ps ih =>
    simp only [fnApplyGrouping, specApplyGrouping, arrayDistinct_newValue]
    apply List.map_congr_left
    intro v _
    rw [ih]

theorem arrayGroupBy_eq_spec [DecidableEq β] (getProp : α → String → β)
    (baseArray : List α) (props : List String) :
    arrayGroupBy getProp baseArray props = specArrayGroupBy getProp baseArray props := by
  cases props with
  | nil => simp [arrayGroupBy, specArrayGroupBy]
  | cons p ps =>
    by_cases h : baseArray.length = 0
    · simp [arrayGroupBy, specArrayGroupBy, h]
    · simp [arrayGroupBy, specArrayGroupBy, h, fnApplyGrouping_eq_spec]

/-! ## Length bookkeeping for the delta operations -/

/-- The length equation asserted by the spec for every array delta result. -/
def lenOk (c : IWarixArrayOperationChange α) : Prop :=
  (c.newValue.length : Int) =
    (c.oldValue.length : Int) + c.addedItems.length - c.removedItems.length

theorem length_filter_bnot (p : γ → Bool) (l : List γ) :
    (l.filter p).length + (l.filter fun a => !(p a)).length = l.length := by
  induction l with
  | nil => rfl
  | cons x xs ih =>
    rw [List.filter_cons, List.filter_cons]
    by_cases hx : p x = true
    · rw [if_pos hx, if_neg (by simp [hx])]
      simp only [List.length_cons]
      omega
    · rw [if_neg hx, if_pos (by simp [Bool.not_eq_true] at hx ⊢; exact hx)]
      simp only [List.length_cons]
      omega

theorem lenOk_fnNoAction (baseArray : List α) : lenOk (fnNoAction baseArray) := by
  simp [lenOk, fnNoAction]

theorem lenOk_arrayPush (baseArray items : List α) : lenOk (arrayPush baseArray items) := by
  unfold arrayPush
  by_cases h : items.length = 0
  · rw [if_pos h]; exact lenOk_fnNoAction baseArray
  · rw [if_neg h]
    simp only [lenOk, List.length_append, List.length_map, List.enum_length,
      List.length_nil]
    push_cast
    omega

theorem lenOk_arrayPop (baseArray : List α) : lenOk (arrayPop baseArray) := by
  unfold arrayPop
  split
  · exact lenOk_fnNoAction baseArray
  · rename_i n h
    simp only [lenOk, List.length_take, List.length_nil, List.length_cons, h]
    omega

theorem lenOk_arrayShift (baseArray : List α) : lenOk (arrayShift baseArray) := by
  unfold arrayShift
  split
  · exact lenOk_fnNoAction []
  · simp only [lenOk, List.length_cons]
    omega

theorem lenOk_arrayUnshift (baseArray items : List α) :
    lenOk (arrayUnshift baseArray items) := by
  unfold arrayUnshift
  by_cases h : items.length = 0
  · rw [if_pos h]; exact lenOk_fnNoAction baseArray
  · rw [if_neg h]
    simp only [lenOk, List.length_append, List.length_map, List.enum_length,
      List.length_nil]
    push_cast
    omega

theorem length_filter_enumFrom (l : List γ) (n : Nat) (q : γ → Bool) :
    ((List.enumFrom n l).filter fun p => q p.2).length = (l.filter q).length := by
  induction l generalizing n with
  | nil => rfl
  | cons x xs ih =>
    rw [show List.enumFrom n (x :: xs) = (n, x) :: List.enumFrom (n + 1) xs from rfl]
    rw [List.filter_cons, List.filter_cons]
    by_cases hx : q x = true
    · rw [if_pos hx, if_pos hx]
      simp [ih]
    · rw [if_neg hx, if_neg hx]
      exact ih (n + 1)

theorem length_filter_enum (l : List γ) (q : γ → Bool) :
    (l.enum.filter fun p => q p.2).length = (l.filter q).length :=
  length_filter_enumFrom l 0 q

theorem jsSpliceStart_le (len : Nat) (start : Int) : jsSpliceStart len start ≤ len := by
  unfold jsSpliceStart
  split
  · omega
  · exact min_le_right _ _

theorem jsSpliceDelete_le (len s : Nat) (deleteCount : Int) :
    jsSpliceDelete len s deleteCount ≤ len - s :=
  min_le_right _ _

theorem lenOk_arraySplice (baseArray : List α) (start deleteCount : Int)
    (items : List α) : lenOk (arraySplice baseArray start deleteCount items) := by
  have hs := jsSpliceStart_le baseArray.length start
  have hd := jsSpliceDelete_le baseArray.length
    (jsSpliceStart baseArray.length start) deleteCount
  unfold arraySplice
  simp only [lenOk]
  rw [List.filter_map]
  simp only [List.length_map, List.length_append, List.length_take, List.length_drop,
    List.enum_length]
  rw [show ((fun x : Int × Nat × α => decide (x.1 = -1)) ∘
      fun p : Nat × (Int × α) => (p.2.1, p.1, p.2.2))
      = (fun p : Nat × (Int × α) => (fun y : Int × α => decide (y.1 = -1)) p.2)
      from rfl]
  rw [length_filter_enum _ (fun y : Int × α => decide (y.1 = -1))]
  rw [List.filter_append, List.filter_append]
  have hnot : ∀ y : Int × α, y ∈ baseArray.enum.map (fun p => ((p.1 : Int), p.2)) →
      ¬ ((fun x : Int × α => decide (x.1 = -1)) y = true) := by
    intro y hy
    rcases List.mem_map.mp hy with ⟨p, _, rfl⟩
    simp only [decide_eq_true_eq]
    omega
  rw [List.filter_eq_nil_iff.mpr fun y hy => hnot y (List.mem_of_mem_take hy)]
  rw [List.filter_eq_nil_iff.mpr fun y hy => hnot y (List.mem_of_mem_drop hy)]
  rw [List.filter_map]
  have : ((fun x : Int × α => decide (x.1 = -1)) ∘ fun it : α => ((-1 : Int), it))
      = fun _ => true := by
    funext it
    simp
  rw [this, List.filter_true]
  simp only [List.length_append, List.length_map, List.length_nil, List.length_take,
    List.length_drop, List.enum_length]
  omega

theorem lenOk_arrayInsert (baseArray : List α) (index : Int) (items : List α) :
    lenOk (arrayInsert baseArray index items) := by
  unfold arrayInsert
  split
  · exact lenOk_fnNoAction baseArray
  · exact lenOk_arraySplice baseArray index 0 items

theorem lenOk_arrayRemoveAt (baseArray : List α) (index removeCount : Int) :
    lenOk (arrayRemoveAt baseArray index removeCount) := by
  unfold arrayRemoveAt
  split
  · exact lenOk_fnNoAction baseArray
  · exact lenOk_arraySplice baseArray index removeCount []

theorem lenOk_arraySetAt (baseArray : List α) (index : Int) (value : α) :
    lenOk (arraySetAt baseArray index value) :=
  lenOk_arraySplice baseArray index 1 [value]

theorem arrayRemoveWhere_oldValue (baseArray : List α)
    (condition : α → Nat → List α → Bool) :
    (arrayRemoveWhere baseArray condition).oldValue = baseArray := rfl

theorem arrayRemoveWhere_addedItems (baseArray : List α)
    (condition : α → Nat → List α → Bool) :
    (arrayRemoveWhere baseArray condition).addedItems = [] := rfl

theorem arrayRemoveWhere_removedItems (baseArray : List α)
    (condition : α → Nat → List α → Bool) :
    (arrayRemoveWhere baseArray condition).removedItems
      = ((baseArray.enum.map fun p =>
          (p.1, p.2, condition p.2 p.1 baseArray)).filter fun x => x.2.2).map
          fun x => ⟨(x.1 : Int), x.2.1⟩ := rfl

theorem lenOk_arrayRemoveWhere (baseArray : List α)
    (condition : α → Nat → List α → Bool) :
    lenOk (arrayRemoveWhere baseArray condition) := by
  have hsum := length_filter_bnot
    (fun p : Nat × α => condition p.2 p.1 baseArray) baseArray.enum
  have henum : baseArray.enum.length = baseArray.length := List.enum_length
  simp only [lenOk]
  rw [arrayRemoveWhere_newValue, arrayRemoveWhere_oldValue,
    arrayRemoveWhere_addedItems, arrayRemoveWhere_removedItems]
  rw [List.filter_map]
  simp only [List.length_map, List.length_nil]
  rw [show ((fun x : Nat × α × Bool => x.2.2) ∘
      fun p : Nat × α => (p.1, p.2, condition p.2 p.1 baseArray))
      = (fun p : Nat × α => condition p.2 p.1 baseArray) from rfl]
  have heq1 : (baseArray.enum.filter fun p =>
      decide (condition p.2 p.1 baseArray = false)).length
      = (baseArray.enum.filter fun a : Nat × α =>
          !(condition a.2 a.1 baseArray)).length := by
    congr 1
    apply List.filter_congr
    intro p _
    cases condition p.2 p.1 baseArray <;> simp
  rw [heq1]
  omega

theorem lenOk_arrayRemove [DecidableEq α] (baseArray items : List α) :
    lenOk (arrayRemove baseArray items) :=
  lenOk_arrayRemoveWhere baseArray _

theorem lenOk_arrayDistinct [DecidableEq α] (baseArray : List α) :
    lenOk (arrayDistinct baseArray) :=
  lenOk_arrayRemoveWhere baseArray _

theorem lenOk_arraySort (baseArray : List α) (cmp : α → α → Int) :
    lenOk (arraySort baseArray cmp) := by
  unfold arraySort
  simp only [lenOk, List.length_map, List.length_nil, length_jsSort, List.enum_length]
  omega

theorem lenOk_arraySet (baseArray newValue : List α) :
    lenOk (arraySet baseArray newValue) := by
  simp only [arraySet, lenOk, List.length_map, List.enum_length]
  omega

theorem lenOk_arrayRevese (baseArray : List α) : lenOk (arrayRevese baseArray) := by
  unfold arrayRevese
  simp only [lenOk, List.length_map, List.length_nil, List.enum_length,
    List.length_reverse]
  omega

theorem lenOk_arrayShuffle (rnd : Nat → Nat) (baseArray : List α) :
    lenOk (arrayShuffle rnd baseArray) := by
  unfold arrayShuffle fnShuffle
  simp only [lenOk, List.length_map, List.length_nil, List.enum_length,
    length_fnShuffleAux]
  omega

/-! ## `WarixDataSubject` (`warix.data-subject.ts`)

A `BehaviorSubject` holding one whole-state record. The model records the
chronological emission history: the initial value plus one snapshot per
`next` call (`rest` is kept newest-first so pushing is cheap). `get(key)`
is `pluck(key)` followed by `distinctUntilChanged()`, whose default
comparator is reference equality, modelled by `DecidableEq` on the value
type. -/

structure WarixDataSubject (K V : Type) where
  initial : K → V
  rest : List (K → V)

namespace WarixDataSubject

/-- Chronological whole-state emission sequence of the subject. -/
def emissions (s : WarixDataSubject K V) : List (K → V) :=
  s.initial :: s.rest.reverse

/-- Current value of the `BehaviorSubject` (the most recent emission). -/
def value (s : WarixDataSubject K V) : K → V :=
  s.rest.headD s.initial

/-- Model of `next`: appends exactly one whole-state emission. -/
def nextState (s : WarixDataSubject K V) (snap : K → V) : WarixDataSubject K V :=
  { s with rest := snap :: s.rest }

/-- Model of `set(key, value)`: one `next` with a snapshot differing only at
`key` (`Object.assign(empty(), this.value, { [key]: value })`). -/
def set [DecidableEq K] (s : WarixDataSubject K V) (key : K) (v : V) :
    WarixDataSubject K V :=
  nextState s (Function.update (value s) key v)

/-- Model of `patch(value)`: one `next` with the partial value's keys merged
over the current snapshot in order (`Object.assign(empty(), this.value, value)`). -/
def patch [DecidableEq K] (s : WarixDataSubject K V) (p : List (K × V)) :
    WarixDataSubject K V :=
  nextState s (p.foldl (fun acc kv => Function.update acc kv.1 kv.2) (value s))

end WarixDataSubject

/-- Model of `distinctUntilChanged()`: drops emissions equal to the
previously emitted value. -/
def dedupe [DecidableEq V] : List V → List V
  | [] => []
  | [x] => [x]
  | x :: y :: rest => if x = y then dedupe (y :: rest) else x :: dedupe (y :: rest)

/-- Model of `get(key)` = `pluck(key)` + `distinctUntilChanged()`: the value
sequence the per-key view emits over the subject's history. -/
def WarixDataSubject.get [DecidableEq V] (s : WarixDataSubject K V) (key : K) :
    List V :=
  dedupe ((WarixDataSubject.emissions s).map fun f => f key)

theorem dedupe_head [DecidableEq V] (x : V) (t : List V) :
    (dedupe (x :: t)).head? = some x := by
  induction t generalizing x with
  | nil => rfl
  | cons y r ih =>
    rw [dedupe]
    by_cases h : x = y
    · rw [if_pos h, ih y, h]
    · rw [if_neg h]
      rfl

theorem dedupe_chain [DecidableEq V] (l : List V) :
    List.Chain' (· ≠ ·) (dedupe l) := by
  induction l with
  | nil => simp [dedupe]
  | cons x t ih =>
    cases t with
    | nil => simp [dedupe]
    | cons y r =>
      rw [dedupe]
      by_cases h : x = y
      · rw [if_pos h]
        exact ih
      · rw [if_neg h]
        have hh := dedupe_head y r
        cases hd : dedupe (y :: r) with
        | nil => simp
        | cons a as =>
          rw [hd] at ih hh
          simp only [List.head?_cons, Option.some.injEq] at hh
          exact List.Chain'.cons (by rw [hh]; exact h) ih

theorem dedupe_concat_last [DecidableEq V] (l : List V) (a : V)
    (hlast : l.getLast? = some a) : dedupe (l ++ [a]) = dedupe l := by
  induction l with
  | nil => simp at hlast
  | cons x t ih =>
    cases t with
    | nil =>
      simp only [List.getLast?_singleton, Option.some.injEq] at hlast
      subst hlast
      simp [dedupe]
    | cons y r =>
      have hlast' : (y :: r).getLast? = some a := by
        rwa [List.getLast?_cons_cons] at hlast
      rw [List.cons_append, List.cons_append, dedupe, ← List.cons_append, ih hlast']
      rw [dedupe]

namespace WarixDataSubject

theorem emissions_nextState (s : WarixDataSubject K V) (snap : K → V) :
    emissions (nextState s snap) = emissions s ++ [snap] := by
  simp [emissions, nextState]

theorem emissions_set [DecidableEq K] (s : WarixDataSubject K V) (key : K) (v : V) :
    emissions (set s key v) = emissions s ++ [Function.update (value s) key v] :=
  emissions_nextState s _

theorem emissions_patch [DecidableEq K] (s : WarixDataSubject K V) (p : List (K × V)) :
    emissions (patch s p)
      = emissions s ++ [p.foldl (fun acc kv => Function.update acc kv.1 kv.2) (value s)] :=
  emissions_nextState s _

theorem getLast_emissions (s : WarixDataSubject K V) :
    (emissions s).getLast? = some (value s) := by
  rcases s with ⟨i, rest⟩
  cases rest with
  | nil => rfl
  | cons r rs =>
    show (i :: (r :: rs).reverse).getLast? = some ((r :: rs).headD i)
    rw [List.reverse_cons, ← List.cons_append, List.getLast?_concat]
    rfl

theorem getLast_map_emissions (s : WarixDataSubject K V) (f : (K → V) → W) :
    ((emissions s).map f).getLast? = some (f (value s)) := by
  rw [List.getLast?_map, getLast_emissions]
  rfl

/-- A `set` of a key to its exact current value adds no emission to that
key's view. -/
theorem get_set_self [DecidableEq K] [DecidableEq V]
    (s : WarixDataSubject K V) (key : K) :
    get (set s key (value s key)) key = get s key := by
  unfold get
  rw [emissions_set, List.map_append]
  have hupd : Function.update (value s) key (value s key) key = value s key := by
    simp
  rw [List.map_singleton, hupd]
  exact dedupe_concat_last _ _ (getLast_map_emissions s _)

end WarixDataSubject

/-! ## Reference identity and `deleteKey` (`warix.data-subject.ts`)

`deleteKey` clones the whole snapshot with lodash `cloneDeep` before
deleting the key, while `set`/`patch` copy field references with
`Object.assign`. To observe the difference the snapshot values are
modelled with an explicit identity: a primitive carries only its value, an
object carries an allocation id plus its (structural) payload. `===` on
objects compares ids; `cloneDeep` allocates fresh ids above the subject's
allocation watermark. -/

inductive JsVal where
  | prim (n : Int)
  | obj (id : Nat) (payload : Int)
  deriving Repr, DecidableEq

/-- JS `===`: value equality on primitives, identity on objects. -/
def refEq : JsVal → JsVal → Bool
  | .prim a, .prim b => a == b
  | .obj i _, .obj j _ => i == j
  | _, _ => false

/-- Deep structural equality (what `cloneDeep` preserves). -/
def structEq : JsVal → JsVal → Bool
  | .prim a, .prim b => a == b
  | .obj _ p, .obj _ q => p == q
  | _, _ => false

def JsVal.isObj : JsVal → Bool
  | .prim _ => false
  | .obj _ _ => true

/-- All object ids of a value lie below the allocation watermark `n`. -/
def idsBelow (n : Nat) : JsVal → Prop
  | .prim _ => True
  | .obj id _ => id < n

/-- A JS object as an ordered key/value record. -/
abbrev Snap : Type := List (String × JsVal)

def lookupSnap (s : Snap) (key : String) : Option JsVal :=
  (s.find? fun e => e.1 = key).map (·.2)

/-- Model of one key of `Object.assign(empty(), this.value, partial)`:
an existing key keeps its position and gets the new value, a new key is
appended. -/
def assignPair (s : Snap) (kv : String × JsVal) : Snap :=
  if s.any fun e => e.1 = kv.1 then
    s.map fun e => if e.1 = kv.1 then (e.1, kv.2) else e
  else s ++ [kv]

/-- Clone of one record entry with the given fresh object id. -/
def cloneEntry (m : Nat) (e : String × JsVal) : String × JsVal :=
  (e.1, match e.2 with
    | .prim n => JsVal.prim n
    | .obj _ payload => JsVal.obj m payload)

/-- Model of lodash `cloneDeep` on a snapshot: primitives are copied,
every object gets a fresh id at or above the base watermark. -/
def cloneSnap (base : Nat) (s : Snap) : Snap :=
  s.enum.map fun p => cloneEntry (base + p.1) p.2

/-- The `WarixDataSubject` specialised to identity-carrying snapshots,
together with the clone allocation watermark. -/
structure JsDataSubject where
  initial : Snap
  rest : List Snap
  nextId : Nat

namespace JsDataSubject

def emissions (s : JsDataSubject) : List Snap :=
  s.initial :: s.rest.reverse

def value (s : JsDataSubject) : Snap :=
  s.rest.headD s.initial

/-- Model of `set(key, value)` on the identity-carrying subject: untouched
keys keep their value by reference. -/
def set (s : JsDataSubject) (key : String) (v : JsVal) : JsDataSubject :=
  { s with rest := assignPair (value s) (key, v) :: s.rest }

/-- Model of `patch(partial)`: the partial record's pairs are assigned in
order over the current snapshot; untouched keys keep their value by
reference. -/
def patch (s : JsDataSubject) (p : List (String × JsVal)) : JsDataSubject :=
  { s with rest := (p.foldl assignPair (value s)) :: s.rest }

/-- Model of `deleteKey(key)`: the current snapshot is deep-cloned (fresh
object ids from the watermark), the key is deleted from the clone, and the
clone is emitted. -/
def deleteKey (s : JsDataSubject) (key : String) : JsDataSubject :=
  { s with
    rest := ((cloneSnap s.nextId (value s)).filter fun e => ¬ e.1 = key) :: s.rest
    nextId := s.nextId + (value s).length }

end JsDataSubject

/-- `distinctUntilChanged()` under an arbitrary comparator; `===` on
possibly-absent values treats two absences as equal. -/
def dedupeBy (eqv : V → V → Bool) : List V → List V
  | [] => []
  | [x] => [x]
  | x :: y :: rest =>
    if eqv x y then dedupeBy eqv (y :: rest) else x :: dedupeBy eqv (y :: rest)

def optRefEq : Option JsVal → Option JsVal → Bool
  | none, none => true
  | some a, some b => refEq a b
  | _, _ => false

/-- Per-key view of the identity-carrying subject (`pluck` +
`distinctUntilChanged`, comparing by `===`). -/
def JsDataSubject.get (s : JsDataSubject) (key : String) : List (Option JsVal) :=
  dedupeBy optRefEq ((JsDataSubject.emissions s).map fun snap => lookupSnap snap key)

/-- All object ids of a snapshot lie below the allocation watermark. -/
def SnapIdsBelow (n : Nat) (s : Snap) : Prop :=
  ∀ e ∈ s, idsBelow n e.2

theorem lookup_map_replace (s : Snap) (k : String) (v : JsVal) (k' : String)
    (h : k' ≠ k) :
    lookupSnap (s.map fun e => if e.1 = k then (e.1, v) else e) k'
      = lookupSnap s k' := by
  unfold lookupSnap
  induction s with
  | nil => rfl
  | cons e t ih =>
    rw [List.map_cons]
    by_cases he : e.1 = k
    · rw [if_pos he]
      rw [List.find?_cons_of_neg, List.find?_cons_of_neg]
      · exact ih
      · simp only [decide_eq_true_eq]
        rw [he]
        exact fun hk => h hk.symm
      · simp only [decide_eq_true_eq]
        rw [he]
        exact fun hk => h hk.symm
    · rw [if_neg he]
      by_cases he' : e.1 = k'
      · rw [List.find?_cons_of_pos, List.find?_cons_of_pos]
        · simpa using he'
        · simpa using he'
      · rw [List.find?_cons_of_neg, List.find?_cons_of_neg]
        · exact ih
        · simpa using he'
        · simpa using he'

theorem lookup_assignPair_ne (s : Snap) (k : String) (v : JsVal) (k' : String)
    (h : k' ≠ k) : lookupSnap (assignPair s (k, v)) k' = lookupSnap s k' := by
  unfold assignPair
  split
  · exact lookup_map_replace s k v k' h
  · unfold lookupSnap
    rw [List.find?_append]
    have hone : List.find? (fun e : String × JsVal => decide (e.1 = k')) [(k, v)]
        = none := by
      have : ¬ (k = k') := fun hk => h hk.symm
      simp [this]
    rw [hone]
    simp

theorem lookup_foldl_assignPair (p : List (String × JsVal)) (s : Snap) (k' : String)
    (h : ∀ kv ∈ p, kv.1 ≠ k') :
    lookupSnap (p.foldl assignPair s) k' = lookupSnap s k' := by
  induction p generalizing s with
  | nil => rfl
  | cons kv t ih =>
    rw [List.foldl_cons, ih _ fun x hx => h x (List.mem_cons_of_mem kv hx)]
    exact lookup_assignPair_ne s kv.1 kv.2 k' fun hk =>
      h kv (List.mem_cons_self kv t) hk.symm

theorem lookup_filter_ne (l : Snap) (key k' : String) (h : k' ≠ key) :
    lookupSnap (l.filter fun e => ¬ e.1 = key) k' = lookupSnap l k' := by
  unfold lookupSnap
  induction l with
  | nil => rfl
  | cons e t ih =>
    rw [List.filter_cons]
    by_cases hq : e.1 = key
    · rw [if_neg (by simp [hq])]
      rw [List.find?_cons_of_neg]
      · exact ih
      · simp only [decide_eq_true_eq]
        rw [hq]
        exact fun hk => h hk.symm
    · rw [if_pos (by simp [hq])]
      by_cases he' : e.1 = k'
      · rw [List.find?_cons_of_pos, List.find?_cons_of_pos]
        · simpa using he'
        · simpa using he'
      · rw [List.find?_cons_of_neg, List.find?_cons_of_neg]
        · exact ih
        · simpa using he'
        · simpa using he'

theorem lookup_cloneFrom (t : Snap) (base : Nat) (k' : String) (v : JsVal) :
    ∀ n : Nat, lookupSnap t k' = some v →
    ∃ v', lookupSnap ((List.enumFrom n t).map fun p => cloneEntry (base + p.1) p.2) k'
        = some v' ∧ structEq v v' = true ∧
      (∀ id pl, v = .obj id pl → ∃ m, v' = .obj m pl ∧ base + n ≤ m) := by
  induction t with
  | nil => intro n hl; simp [lookupSnap] at hl
  | cons e t ih =>
    intro n hl
    rw [show List.enumFrom n (e :: t) = (n, e) :: List.enumFrom (n + 1) t from rfl,
      List.map_cons]
    by_cases he : e.1 = k'
    · unfold lookupSnap at hl
      rw [List.find?_cons_of_pos] at hl
      · simp only [Option.map_some', Option.some.injEq] at hl
        refine ⟨(cloneEntry (base + n) e).2, ?_, ?_, ?_⟩
        · unfold lookupSnap
          rw [List.find?_cons_of_pos]
          · rfl
          · simpa [cloneEntry] using he
        · subst hl
          cases h : e.2 with
          | prim a => simp [cloneEntry, structEq, h]
          | obj id pl => simp [cloneEntry, structEq, h]
        · intro id pl hv
          subst hl
          refine ⟨base + n, ?_, le_refl _⟩
          simp [cloneEntry, hv]
      · simpa using he
    · unfold lookupSnap at hl
      rw [List.find?_cons_of_neg] at hl
      · rcases ih (n + 1) hl with ⟨v', hl', hs', hm'⟩
        refine ⟨v', ?_, hs', ?_⟩
        · unfold lookupSnap
          rw [List.find?_cons_of_neg]
          · exact hl'
          · simpa [cloneEntry] using he
        · intro id pl hv
          rcases hm' id pl hv with ⟨m, hm, hle⟩
          exact ⟨m, hm, by omega⟩
      · simpa using he

/-! ## `WarixLocalDataSource` (`warix.local-data-source.ts`)

`T` is the row type, `F` the filter-group type and `S` the sort-definition
type. `arrayMultiSort` and `compileGroup` live in the external `warix-core`
package, so they are taken as opaque function parameters; the claims about
the pipeline only concern how the source composes them. -/

/-- Model of `array.slice(a, b)` with full JS argument clamping (negative
indices count from the end). -/
def jsSliceJs (l : List α) (a b : Int) : List α :=
  let len := l.length
  let s := if a < 0 then (len + a).toNat else min a.toNat len
  let e := if b < 0 then (len + b).toNat else min b.toNat len
  (l.take e).drop s

/-- State snapshot fields of `IWarixLocalDataSourceState` that feed the
derived pipeline. -/
structure IWarixLocalDataSourceState (T F S : Type u) where
  data : Option (List T)
  filtering : Option F
  grouping : List String
  page : Option Int
  rowsPerPage : Option Int
  sorting : List S

/-- Model of `constructWorkSource`: the combined mapping over
`(data$, rowsPerPage$, page$, filtering$, sorting$)`. `arrayMultiSort`
is applied when the sorting list is non-empty, then the predicate compiled
from the filter group when the group is non-nil, then
`slice(rowsPerPage * page, rowsPerPage * (page + 1))` when both paging
fields are non-nil. -/
def constructWorkSource (arrayMultiSort : List S → List T → List T)
    (compileGroup : F → T → Bool) (st : IWarixLocalDataSourceState T F S) :
    List T :=
  let dt := st.data.getD []
  let dt := if st.sorting.length > 0 then arrayMultiSort st.sorting dt else dt
  let dt := match st.filtering with
    | some g => dt.filter (compileGroup g)
    | none => dt
  match st.rowsPerPage, st.page with
  | some rpp, some p => jsSliceJs dt (rpp * p) (rpp * (p + 1))
  | _, _ => dt

/-- Model of `constructGroupingSource`: `arrayGroupBy` of the work source by
the grouping paths, exposed as a separate derived view. -/
def constructGroupingSource [DecidableEq β] (getProp : T → String → β)
    (arrayMultiSort : List S → List T → List T) (compileGroup : F → T → Bool)
    (st : IWarixLocalDataSourceState T F S) : List (IWarixArrayGrouping T β) :=
  arrayGroupBy getProp (constructWorkSource arrayMultiSort compileGroup st) st.grouping

/-- Modelled from the spec: the visible window as three named stages in the
fixed order sort, then filter, then page slice. -/
def specSortStage (arrayMultiSort : List S → List T → List T)
    (sorting : List S) (l : List T) : List T :=
  match sorting with
  | [] => l
  | _ :: _ => arrayMultiSort sorting l

/-- Modelled from the spec: filter by the predicate compiled from the
filter group, when one is present. -/
def specFilterStage (compileGroup : F → T → Bool) (filtering : Option F)
    (l : List T) : List T :=
  match filtering with
  | some g => l.filter (compileGroup g)
  | none => l

/-- Modelled from the spec: the page slice
`[rowsPerPage * page, rowsPerPage * (page + 1))`, applied only when both
`rowsPerPage` and `page` are set. -/
def specPageSlice (rowsPerPage page : Option Int) (l : List T) : List T :=
  match rowsPerPage, page with
  | some rpp, some p => jsSliceJs l (rpp * p) (rpp * (p + 1))
  | _, _ => l

/-- Modelled from the spec: the composed visible window, sort then filter
then page slice. -/
def specVisibleWindow (arrayMultiSort : List S → List T → List T)
    (compileGroup : F → T → Bool) (st : IWarixLocalDataSourceState T F S) :
    List T :=
  specPageSlice st.rowsPerPage st.page
    (specFilterStage compileGroup st.filtering
      (specSortStage arrayMultiSort st.sorting (st.data.getD [])))

/-! ## Paging (`paging` of the local and the remote data source) -/

/-- JS `x || 0` on a number-or-null. -/
def jsOr0 (x : Option Int) : Int := x.getD 0

/-- Model of `calculatePagesCount` (same body in both sources): 0 for an
empty collection, 1 when `rowsPerPage` is 0, otherwise
`Math.ceil(dataLength / rowsPerPage)`. -/
def calculatePagesCount (dataLength rowsPerPage : Nat) : Nat :=
  if dataLength = 0 then 0
  else if rowsPerPage = 0 then 1
  else (dataLength + rowsPerPage - 1) / rowsPerPage

/-- Model of `WarixLocalDataSource.paging(rowsPerPage, page)`: both
arguments pass through `Math.abs(x || 0)`, the pages count is computed with
the new rows-per-page, and the stored page is clamped to that count. The
result is the `(rowsPerPage, page)` pair patched into the state. -/
def localPaging (dataLength : Nat) (rowsPerPage page : Option Int) :
    Option Int × Option Int :=
  let rpp : Nat := (jsOr0 rowsPerPage).natAbs
  let ppp : Nat := (jsOr0 page).natAbs
  let mx := calculatePagesCount dataLength rpp
  (match rowsPerPage with | none => none | some _ => some (rpp : Int),
   match page with
   | none => none
   | some _ => if ppp > mx then some (mx : Int) else some (ppp : Int))

/-- Model of `WarixRemoteDataSource.paging(rowsPerPage, page)` with no
`acceptPageChange` callback installed (`of(true)` accepts immediately):
`max` is computed exactly as in the source — and, as in the source, never
used — and `applyPageChange` receives the unclamped `Math.abs(page || 0)`,
committing it whenever it differs from the current page by `===`. -/
def remotePaging (totalCount curPage : Option Int)
    (rowsPerPage page : Option Int) : Option Int × Option Int :=
  let rpp : Nat := (jsOr0 rowsPerPage).natAbs
  let ppp : Nat := (jsOr0 page).natAbs
  let _mx := calculatePagesCount (jsOr0 totalCount).toNat rpp
  let rpp' := match rowsPerPage with | none => none | some _ => some (rpp : Int)
  let page' := if some (ppp : Int) = curPage then curPage else some (ppp : Int)
  (rpp', page')

/-! ## Mutation protocol of the remote source (`applyFilterChange`,
`applyGroupChange`, `applyPageChange`, `applySortChange`)

All four methods share the same shape; `V` models the field's value under
reference identity (`DecidableEq` is `===`). The accept-callback's
observable is modelled by its emission list; `take(1)` keeps only the head.
The result is the argument of the `state$.set` call, or `none` when no set
happens (rejection, nil replacement, or an identical proposal). -/

inductive WarixAcceptEmission (V : Type u) where
  | boolResult (b : Bool)
  | valueResult (v : Option V)
  deriving Repr, DecidableEq

def applyAcceptChange [DecidableEq V] (current proposal : V)
    (cb : Option (V → V → List (WarixAcceptEmission V))) : Option V :=
  if proposal = current then none
  else
    let emitted := match cb with
      | none => [WarixAcceptEmission.boolResult true]
      | some f => f current proposal
    match emitted.head? with
    | none => none
    | some (.boolResult b) => if b then some proposal else none
    | some (.valueResult none) => none
    | some (.valueResult (some r)) => some r

/-! ## Debounced request stream of the remote source

The constructor subscribes
`combineLatest([filterValues$, grouping$, page$ (unmuted), rowsPerPage$,
sorting$]).pipe(debounceTime(10))` to `performDataRequest`. Emissions are
modelled as virtual-time-stamped lists; all five sources are fed by the
same `BehaviorSubject`, so the combined stream emits the current field
tuple at subscription and after every mutation. Public mutators run with
`pageIsMuted = false`, so the page filter passes every burst emission. -/

structure IWarixRemoteDataSourceBase (F S : Type u) where
  filterValues : F
  grouping : List String
  page : Option Int
  rowsPerPage : Option Int
  sorting : List S

structure IWarixRemoteDataSourceParams (F S : Type u) where
  filterValues : F
  grouping : List String
  page : Option Int
  rowsPerPage : Option Int
  skip : Int
  take : Int
  sorting : List S

/-- Model of `getRequestParams` restricted to the request fields
(`cloneDeep`/`slice` of the source make value copies; the model is
value-level already). -/
def getRequestParams (st : IWarixRemoteDataSourceBase F S) :
    IWarixRemoteDataSourceParams F S :=
  { filterValues := st.filterValues
    grouping := st.grouping
    page := st.page
    rowsPerPage := st.rowsPerPage
    skip := jsOr0 st.rowsPerPage * jsOr0 st.page
    take := jsOr0 st.rowsPerPage
    sorting := st.sorting }

/-- Model of `debounceTime(d)` over a time-stamped emission list (times
nondecreasing): an emission survives, delayed by `d`, exactly when no
further emission arrives within `d` of it. -/
def debounceTime (d : Nat) : List (Nat × α) → List (Nat × α)
  | [] => []
  | [(t, v)] => [(t + d, v)]
  | (t, v) :: (u, w) :: rest =>
    if t + d ≤ u then (t + d, v) :: debounceTime d ((u, w) :: rest)
    else debounceTime d ((u, w) :: rest)

/-- Successive states produced by a list of mutations. -/
def applyMuts (s0 : B) : List (B → B) → List B
  | [] => []
  | m :: ms => m s0 :: applyMuts (m s0) ms

/-- Combined-stream emissions of a synchronous mutation burst at time `t`:
the subscription-time tuple followed by the tuple after each mutation, all
carrying the same virtual time. -/
def burstEmissions (t : Nat) (s0 : B) (muts : List (B → B)) : List (Nat × B) :=
  (t, s0) :: (applyMuts s0 muts).map fun s => (t, s)

/-- The `performDataRequest` invocations caused by a synchronous burst: the
debounced combined stream, each emission turned into its request params. -/
def dataRequestCalls (t : Nat) (s0 : IWarixRemoteDataSourceBase F S)
    (muts : List (IWarixRemoteDataSourceBase F S → IWarixRemoteDataSourceBase F S)) :
    List (IWarixRemoteDataSourceParams F S) :=
  (debounceTime 10 (burstEmissions t s0 muts)).map fun e => getRequestParams e.2

theorem debounceTime_const (d : Nat) (hd : 0 < d) (t : Nat) (v : α) :
    ∀ l : List (Nat × α), (∀ e ∈ l, e.1 = t) →
      debounceTime d ((t, v) :: l) = [(t + d, (l.map (·.2)).getLastD v)] := by
  intro l
  induction l generalizing v with
  | nil => intro _; rfl
  | cons e r ih =>
    intro h
    obtain ⟨u, w⟩ := e
    have hu : u = t := h (u, w) (by simp)
    subst hu
    rw [debounceTime, if_neg (by omega)]
    rw [ih w fun e he => h e (List.mem_cons_of_mem _ he)]
    rw [List.map_cons, List.getLastD_cons]

theorem applyMuts_getLastD (s0 : B) (muts : List (B → B)) :
    (applyMuts s0 muts).getLastD s0 = muts.foldl (fun s m => m s) s0 := by
  induction muts generalizing s0 with
  | nil => rfl
  | cons m ms ih =>
    rw [applyMuts, List.getLastD_cons, List.foldl_cons]
    exact ih (m s0)

/-! ## `WarixDataPager` (second implementation, states its `eofPage` and
`eofIndex` in `updateStateForPageRequest`) -/

structure IWarixDataPagerPage (T : Type) where
  pageIndex : Int
  startIndex : Int
  data : List T
  deriving Repr, DecidableEq

structure IWarixDataPagerState (T : Type) where
  loadingCount : Int
  eofIndex : Option Int
  eofPage : Option Int
  minIndex : Option Int
  minPageIndex : Option Int
  maxPageIndex : Option Int
  maxIndex : Option Int
  lastRequestMinIndex : Option Int
  lastRequestMaxIndex : Option Int
  data : List T
  deriving Repr, DecidableEq

structure WarixDataPager (T : Type) where
  pageSize : Int
  state : IWarixDataPagerState T
  pages : List (IWarixDataPagerPage T)
  deriving Repr, DecidableEq

structure WarixPagerRanges where
  minIndex : Int
  maxIndex : Int
  minPageIndex : Int
  maxPageIndex : Int
  deriving Repr, DecidableEq

/-- Model of `determineRanges` (only ever called with a non-empty pages
buffer, right after a push). -/
def determineRanges (pg : WarixDataPager T) : WarixPagerRanges :=
  let pageIndexs := pg.pages.map (·.pageIndex)
  let minP := pageIndexs.foldl min (pageIndexs.headD 0)
  let maxP := pageIndexs.foldl max (pageIndexs.headD 0)
  let maxData := ((pg.pages.find? fun p => p.pageIndex = maxP).map (·.data)).getD []
  { minIndex := minP * pg.pageSize
    maxIndex := maxP * pg.pageSize + maxData.length
    minPageIndex := minP
    maxPageIndex := maxP }

/-- Model of `updateStateForPageRequest`. In the branch taken when no EOF
is recorded yet, the source computes `Math.min(pageIndex, eofPage)` and
`Math.min(eofIndex, ranges.maxIndex)` with the peeked `eofPage`/`eofIndex`
still `null`; JS `Math.min` coerces `null` to `0`, modelled by `jsOr0`. -/
def updateStateForPageRequest (pg : WarixDataPager T) (pageIndex dataLength : Int) :
    WarixDataPager T :=
  let eofPage := pg.state.eofPage
  let eofIndex := pg.state.eofIndex
  let r := determineRanges pg
  { pg with state := { pg.state with
      eofPage := if eofPage ≠ none then eofPage
        else if dataLength < pg.pageSize then some (min pageIndex (jsOr0 eofPage))
        else eofPage
      eofIndex := if eofIndex ≠ none then eofIndex
        else if dataLength < pg.pageSize then some (min (jsOr0 eofIndex) r.maxIndex)
        else eofIndex
      minPageIndex := some r.minPageIndex
      maxPageIndex := some r.maxPageIndex
      minIndex := some r.minIndex
      maxIndex := some r.maxIndex
      loadingCount := pg.state.loadingCount - 1 } }

/-- Model of `allowPageRequest`: every page is allowed until an EOF page is
recorded, then only pages strictly below it. -/
def allowPageRequest (pg : WarixDataPager T) (pageIndex : Int) : Bool :=
  match pg.state.eofPage with
  | none => true
  | some e => pageIndex < e

structure WarixGetPageResult (T : Type) where
  pager : WarixDataPager T
  result : List T
  callbackInvoked : Bool
  deriving Repr, DecidableEq

/-- Model of `getPage`: a disallowed page short-circuits to an empty result
without invoking the callback; a buffered page answers from the buffer;
otherwise the callback is invoked (its observable's first emission is the
returned record list), the page is pushed and the state updated. -/
def getPage (pg : WarixDataPager T) (callback : Int → Int → List T)
    (pageIndex : Int) : WarixGetPageResult T :=
  if allowPageRequest pg pageIndex = false then ⟨pg, [], false⟩
  else
    match pg.pages.find? fun p => p.pageIndex = pageIndex with
    | some page => ⟨pg, page.data, false⟩
    | none =>
      let pg1 := { pg with state :=
        { pg.state with loadingCount := pg.state.loadingCount + 1 } }
      let dr := callback (pageIndex * pg.pageSize) ((pageIndex + 1) * pg.pageSize)
      let pg2 := { pg1 with pages :=
        pg1.pages ++ [⟨pageIndex, pageIndex * pg.pageSize, dr⟩] }
      ⟨updateStateForPageRequest pg2 pageIndex dr.length, dr, true⟩

/-- A freshly constructed pager with the given page size. -/
def freshPagerState (T : Type) : IWarixDataPagerState T :=
  { loadingCount := 0
    eofIndex := none
    eofPage := none
    minIndex := none
    minPageIndex := none
    maxPageIndex := none
    maxIndex := none
    lastRequestMinIndex := none
    lastRequestMaxIndex := none
    data := [] }

def freshPager (T : Type) (pageSize : Int) : WarixDataPager T :=
  { pageSize := pageSize
    state := freshPagerState T
    pages := [] }

/-- The default comparer of `arraySort`
(`a.item < b.item ? -1 : a.item === b.item ? 0 : 1`). -/
def jsDefaultCompare (a b : Int) : Int :=
  if a < b then -1 else if a = b then 0 else 1

instance (n : Nat) (v : JsVal) : Decidable (idsBelow n v) :=
  match v with
  | .prim _ => isTrue trivial
  | .obj id _ => inferInstanceAs (Decidable (id < n))

instance (n : Nat) (s : Snap) : Decidable (SnapIdsBelow n s) :=
  inferInstanceAs (Decidable (∀ e ∈ s, idsBelow n e.2))

/-- Identity-carrying subject with an object under `a`, a primitive under
`b` and allocation watermark 1. -/
def demoSubject : JsDataSubject :=
  { initial := [("a", JsVal.obj 0 5), ("b", JsVal.prim 1)]
    rest := []
    nextId := 1 }

/-! ## The claims -/

/-- C1. For every state snapshot of the local data source, the composed
visible-window view (`constructWorkSource`) equals applying, in this fixed
order: multi-sort by the sorting list when non-empty, then filter by the
predicate compiled from the filtering group when non-null, then the page
slice `[rowsPerPage*page, rowsPerPage*(page+1))` when both paging fields
are set; the grouping view is a separate derived view equal to
`arrayGroupBy` of that working set, never chained into the working-set
output. -/
theorem local_work_source_refines_spec_pipeline (T F S β : Type)
    [DecidableEq β] (getProp : T → String → β)
    (arrayMultiSort : List S → List T → List T) (compileGroup : F → T → Bool)
    (st : IWarixLocalDataSourceState T F S) :
    constructWorkSource arrayMultiSort compileGroup st
        = specVisibleWindow arrayMultiSort compileGroup st ∧
      constructGroupingSource getProp arrayMultiSort compileGroup st
        = arrayGroupBy getProp (constructWorkSource arrayMultiSort compileGroup st)
            st.grouping := by
  constructor
  · unfold constructWorkSource specVisibleWindow specPageSlice specFilterStage
      specSortStage
    cases hsort : st.sorting <;> cases st.filtering <;>
      cases st.rowsPerPage <;> cases st.page <;> simp
  · rfl

/-- C2. The local `paging` clamps the stored page into `[0, pagesCount]`
computed with the new rows-per-page (25 rows, 10 per page, requested page
100 stores page 3), but the remote `paging` computes the same bound and
never uses it: with `totalCount = 25` the same call stores page 100, above
`pagesCount = 3`. -/
theorem remote_paging_stores_unclamped_page :
    localPaging 25 (some 10) (some 100) = (some 10, some 3) ∧
      remotePaging (some 25) none (some 10) (some 100) = (some 10, some 100) ∧
      calculatePagesCount 25 10 = 3 ∧ ((100 : Int) > 3) := by
  refine ⟨by decide, by decide, by decide, by decide⟩

/-- C3. In the `part_006` pager, the first short fetch records
`eofPage = Math.min(pageIndex, null) = 0` instead of the fetch's page
index: with page size 10, a `getPage(3)` whose callback returns 7 records
sets the boundary to 0, not 3, and afterwards even page 1 (below the true
boundary) short-circuits to an empty result without invoking the
callback. -/
theorem pager_eof_boundary_miscomputed :
    (getPage (freshPager Nat 10) (fun _ _ => [1, 2, 3, 4, 5, 6, 7]) 3).pager.state.eofPage
        = some 0 ∧
      (getPage (freshPager Nat 10) (fun _ _ => [1, 2, 3, 4, 5, 6, 7]) 3).callbackInvoked
        = true ∧
      some (0 : Int) ≠ some (3 : Int) ∧
      (getPage (getPage (freshPager Nat 10) (fun _ _ => [1, 2, 3, 4, 5, 6, 7]) 3).pager
          (fun _ _ => [1, 2, 3, 4, 5, 6, 7]) 1).result = [] ∧
      (getPage (getPage (freshPager Nat 10) (fun _ _ => [1, 2, 3, 4, 5, 6, 7]) 3).pager
          (fun _ _ => [1, 2, 3, 4, 5, 6, 7]) 1).callbackInvoked = false := by
  refine ⟨by decide, by decide, by decide, by decide, by decide⟩

/-- C4. The mutation protocol of `applyFilterChange` / `applyGroupChange` /
`applyPageChange` / `applySortChange`: a reference-identical proposal is a
no-op; with no accept-callback the proposal is committed; a first emission
of `false` leaves the field unchanged (no `set` call at all); a first
emission of a non-nil replacement commits the replacement; and only the
first emitted value is honored. -/
theorem remote_mutation_protocol (V : Type) [DecidableEq V] :
    (∀ (c : V) (cb : Option (V → V → List (WarixAcceptEmission V))),
        applyAcceptChange c c cb = none) ∧
      (∀ c p : V, p ≠ c → applyAcceptChange c p none = some p) ∧
      (∀ (c p : V) (f : V → V → List (WarixAcceptEmission V)),
        (f c p).head? = some (WarixAcceptEmission.boolResult false) →
        applyAcceptChange c p (some f) = none) ∧
      (∀ (c p r : V) (f : V → V → List (WarixAcceptEmission V)), p ≠ c →
        (f c p).head? = some (WarixAcceptEmission.valueResult (some r)) →
        applyAcceptChange c p (some f) = some r) ∧
      (∀ (c p : V) (f g : V → V → List (WarixAcceptEmission V)),
        (f c p).head? = (g c p).head? →
        applyAcceptChange c p (some f) = applyAcceptChange c p (some g)) := by
  refine ⟨?_, ?_, ?_, ?_, ?_⟩
  · intro c cb
    unfold applyAcceptChange
    rw [if_pos rfl]
  · intro c p hne
    unfold applyAcceptChange
    rw [if_neg hne]
    rfl
  · intro c p f hf
    unfold applyAcceptChange
    by_cases h : p = c
    · rw [if_pos h]
    · rw [if_neg h]
      simp only [hf]
      rfl
  · intro c p r f hne hf
    unfold applyAcceptChange
    rw [if_neg hne]
    simp only [hf]
  · intro c p f g hfg
    unfold applyAcceptChange
    by_cases h : p = c
    · rw [if_pos h, if_pos h]
    · rw [if_neg h, if_neg h]
      simp only [hfg]

theorem remote_mutation_protocol_witness :
    applyAcceptChange (V := Int) 0 0 none = none ∧
      applyAcceptChange (V := Int) 0 1 none = some 1 ∧
      applyAcceptChange (V := Int) 0 1
        (some fun _ _ => [.boolResult false, .boolResult true]) = none ∧
      applyAcceptChange (V := Int) 0 1
        (some fun _ _ => [.valueResult (some 5)]) = some 5 ∧
      applyAcceptChange (V := Int) 0 1
          (some fun _ _ => [.boolResult false, .boolResult true])
        = applyAcceptChange (V := Int) 0 1 (some fun _ _ => [.boolResult false]) :=
  ⟨(remote_mutation_protocol Int).1 0 none,
    (remote_mutation_protocol Int).2.1 0 1 (by decide),
    (remote_mutation_protocol Int).2.2.1 0 1 _ rfl,
    (remote_mutation_protocol Int).2.2.2.1 0 1 5 _ (by decide) rfl,
    (remote_mutation_protocol Int).2.2.2.2 0 1 _ _ rfl⟩

/-- C5. A synchronous burst of mutations feeds the combined
`combineLatest` stream, and the fixed 10 ms debounce collapses it into
exactly one `performDataRequest` invocation whose parameters reflect all
final field values. -/
theorem remote_burst_single_request (F S : Type) (t : Nat)
    (s0 : IWarixRemoteDataSourceBase F S)
    (muts : List (IWarixRemoteDataSourceBase F S → IWarixRemoteDataSourceBase F S)) :
    dataRequestCalls t s0 muts
      = [getRequestParams (muts.foldl (fun s m => m s) s0)] := by
  unfold dataRequestCalls burstEmissions
  have hmem : ∀ e ∈ (applyMuts s0 muts).map (fun s => (t, s)), e.1 = t := by
    intro e he
    rcases List.mem_map.mp he with ⟨s, _, rfl⟩
    rfl
  rw [debounceTime_const 10 (by omega) t s0 _ hmem]
  rw [List.map_map,
    show ((fun x : Nat × IWarixRemoteDataSourceBase F S => x.2) ∘
      fun s : IWarixRemoteDataSourceBase F S => (t, s)) = fun s => s from rfl,
    List.map_id', applyMuts_getLastD]
  rfl

/-- C6. In `arrayShift`, the surviving items' descriptors carry
`oldIndex = i - 1` instead of the position `i + 1` the item actually came
from: shifting `[10, 20]` reports `{oldIndex: -1, newIndex: 0, item: 20}`,
whose `oldIndex` points at no element of the old array. In `arraySort`
the records' `newIndex` is never reassigned after sorting, so
`shiftedItems` is always empty: sorting `[2, 1]` moves both items yet
reports no shifted item. -/
theorem shift_and_sort_report_wrong_shifted_items :
    (arrayShift [(10 : Int), 20]).shiftedItems
        = [{ oldIndex := -1, newIndex := 0, item := 20 }] ∧
      (arraySort [(2 : Int), 1] jsDefaultCompare).newValue = [1, 2] ∧
      (arraySort [(2 : Int), 1] jsDefaultCompare).shiftedItems = [] := by
  refine ⟨by decide, by decide, by decide⟩

/-- C7. For every array delta operation and any input, the returned change
satisfies `newValue.length = oldValue.length + addedItems.length -
removedItems.length`. -/
theorem array_ops_length_equation :
    (∀ (α : Type) (b items : List α), lenOk (arrayPush b items)) ∧
      (∀ (α : Type) (b : List α), lenOk (arrayPop b)) ∧
      (∀ (α : Type) (b : List α), lenOk (arrayShift b)) ∧
      (∀ (α : Type) (b items : List α), lenOk (arrayUnshift b items)) ∧
      (∀ (α : Type) (b : List α) (s d : Int) (items : List α),
        lenOk (arraySplice b s d items)) ∧
      (∀ (α : Type) (b : List α) (i : Int) (items : List α),
        lenOk (arrayInsert b i items)) ∧
      (∀ (α : Type) (b : List α) (i c : Int), lenOk (arrayRemoveAt b i c)) ∧
      (∀ (α : Type) (b : List α) (cond : α → Nat → List α → Bool),
        lenOk (arrayRemoveWhere b cond)) ∧
      (∀ (α : Type) [DecidableEq α] (b items : List α), lenOk (arrayRemove b items)) ∧
      (∀ (α : Type) (b : List α) (cmp : α → α → Int), lenOk (arraySort b cmp)) ∧
      (∀ (α : Type) (b n : List α), lenOk (arraySet b n)) ∧
      (∀ (α : Type) (b : List α) (i : Int) (v : α), lenOk (arraySetAt b i v)) ∧
      (∀ (α : Type) (b : List α), lenOk (arrayRevese b)) ∧
      (∀ (α : Type) (rnd : Nat → Nat) (b : List α), lenOk (arrayShuffle rnd b)) ∧
      (∀ (α : Type) [DecidableEq α] (b : List α), lenOk (arrayDistinct b)) :=
  ⟨fun _ => lenOk_arrayPush, fun _ => lenOk_arrayPop, fun _ => lenOk_arrayShift,
    fun _ => lenOk_arrayUnshift, fun _ => lenOk_arraySplice,
    fun _ => lenOk_arrayInsert, fun _ => lenOk_arrayRemoveAt,
    fun _ => lenOk_arrayRemoveWhere, fun _ _ => lenOk_arrayRemove,
    fun _ => lenOk_arraySort, fun _ => lenOk_arraySet, fun _ => lenOk_arraySetAt,
    fun _ => lenOk_arrayRevese, fun _ => lenOk_arrayShuffle,
    fun _ _ => lenOk_arrayDistinct⟩

/-- C8. `arrayGroupBy` returns one degenerate root node wrapping the input
when the array or the property list is empty, and otherwise partitions
recursively by each property in order, groups appearing in order of first
appearance of their value and each group's items keeping the input's
relative order — the specification-side recursive definition built from
`firstOccurrences` and `filter`. -/
theorem group_by_refines_spec (α β : Type) [DecidableEq β]
    (getProp : α → String → β) (baseArray : List α) (props : List String) :
    arrayGroupBy getProp baseArray props = specArrayGroupBy getProp baseArray props :=
  arrayGroupBy_eq_spec getProp baseArray props

/-- C9. Every `set` and every `patch` adds exactly one emission to the
whole-state stream (a multi-key patch emits once, not once per key); the
per-key view emits only values that differ from the previously emitted
value for that key; and a `set` of a key to its exact current value adds
no emission to that key's view. -/
theorem subject_emission_discipline (K V : Type) [DecidableEq K] [DecidableEq V] :
    (∀ (s : WarixDataSubject K V) (key : K) (v : V),
        (WarixDataSubject.emissions (WarixDataSubject.set s key v)).length
          = (WarixDataSubject.emissions s).length + 1) ∧
      (∀ (s : WarixDataSubject K V) (p : List (K × V)),
        (WarixDataSubject.emissions (WarixDataSubject.patch s p)).length
          = (WarixDataSubject.emissions s).length + 1) ∧
      (∀ (s : WarixDataSubject K V) (key : K),
        List.Chain' (· ≠ ·) (WarixDataSubject.get s key)) ∧
      (∀ (s : WarixDataSubject K V) (key : K),
        WarixDataSubject.get (WarixDataSubject.set s key (WarixDataSubject.value s key)) key
          = WarixDataSubject.get s key) := by
  refine ⟨?_, ?_, ?_, ?_⟩
  · intro s key v
    rw [WarixDataSubject.emissions_set, List.length_append]
    rfl
  · intro s p
    rw [WarixDataSubject.emissions_patch, List.length_append]
    rfl
  · intro s key
    exact dedupe_chain _
  · intro s key
    exact WarixDataSubject.get_set_self s key

/-- C10. `deleteKey` emits a deep clone of the snapshot with the key
removed: every remaining object-valued field is structurally equal to,
but not reference-identical with, its previous value — unlike `set` and
`patch`, which keep untouched fields identical by reference — so a
per-key view over an object field re-emits after a `deleteKey` of a
different key even though the field was not modified. -/
theorem delete_key_clones_remaining_fields :
    (∀ (s : JsDataSubject) (key k' : String) (v : JsVal),
        SnapIdsBelow s.nextId (JsDataSubject.value s) → k' ≠ key →
        lookupSnap (JsDataSubject.value s) k' = some v →
        ∃ v', lookupSnap (JsDataSubject.value (JsDataSubject.deleteKey s key)) k'
            = some v' ∧ structEq v v' = true ∧
          (v.isObj = true → refEq v v' = false)) ∧
      (∀ (s : JsDataSubject) (key k' : String) (v : JsVal), k' ≠ key →
        lookupSnap (JsDataSubject.value (JsDataSubject.set s key v)) k'
          = lookupSnap (JsDataSubject.value s) k') ∧
      (∀ (s : JsDataSubject) (p : List (String × JsVal)) (k' : String),
        (∀ kv ∈ p, kv.1 ≠ k') →
        lookupSnap (JsDataSubject.value (JsDataSubject.patch s p)) k'
          = lookupSnap (JsDataSubject.value s) k') ∧
      ((JsDataSubject.get (JsDataSubject.deleteKey demoSubject "b") "a").length = 2 ∧
        (JsDataSubject.get (JsDataSubject.set demoSubject "b" (JsVal.prim 2)) "a").length
          = 1) := by
  refine ⟨?_, ?_, ?_, by decide, by decide⟩
  · intro s key k' v hwf hne hl
    have hval : JsDataSubject.value (JsDataSubject.deleteKey s key)
        = (cloneSnap s.nextId (JsDataSubject.value s)).filter fun e => ¬ e.1 = key :=
      rfl
    rw [hval, lookup_filter_ne _ _ _ hne]
    rcases lookup_cloneFrom (JsDataSubject.value s) s.nextId k' v 0 hl
      with ⟨v', hl', hs', hm'⟩
    refine ⟨v', hl', hs', ?_⟩
    intro hobj
    cases hv : v with
    | prim n =>
      subst hv
      simp [JsVal.isObj] at hobj
    | obj id pl =>
      subst hv
      rcases hm' id pl rfl with ⟨m, hm, hle⟩
      have hidlt : id < s.nextId := by
        rcases Option.map_eq_some'.mp hl with ⟨e, hfind, hev⟩
        have hmem := List.mem_of_find?_eq_some hfind
        have hh := hwf e hmem
        rw [hev] at hh
        exact hh
      rw [hm]
      show (id == m) = false
      have hne2 : id ≠ m := by omega
      simp [hne2]
  · intro s key k' v hne
    exact lookup_assignPair_ne _ key v k' hne
  · intro s p k' hp
    exact lookup_foldl_assignPair p _ k' hp

theorem delete_key_clones_witness :
    (SnapIdsBelow demoSubject.nextId (JsDataSubject.value demoSubject) ∧
        ("a" : String) ≠ "b" ∧
        lookupSnap (JsDataSubject.value demoSubject) "a" = some (JsVal.obj 0 5)) ∧
      (∃ v', lookupSnap
            (JsDataSubject.value (JsDataSubject.deleteKey demoSubject "b")) "a"
          = some v' ∧ structEq (JsVal.obj 0 5) v' = true ∧
          (JsVal.isObj (JsVal.obj 0 5) = true → refEq (JsVal.obj 0 5) v' = false)) ∧
      lookupSnap (JsDataSubject.value (JsDataSubject.set demoSubject "a" (JsVal.prim 9))) "b"
        = lookupSnap (JsDataSubject.value demoSubject) "b" :=
  ⟨⟨by decide, by decide, by decide⟩,
    delete_key_clones_remaining_fields.1 demoSubject "b" "a" (JsVal.obj 0 5)
      (by decide) (by decide) (by decide),
    delete_key_clones_remaining_fields.2.1 demoSubject "a" "b" (JsVal.prim 9)
      (by decide)⟩

end Warix
